/-
Verification of the mini-blockchain ledger (src/blockchain/Blockchain.py).

Shallow embedding conventions:
* Python byte strings are `List Nat` (byte values).
* `hashlib.sha256(...).hexdigest()` is an external library primitive;
  every definition and theorem is parameterized over the digest function
  `d : List Nat → String` (the spec itself says any fixed cryptographic
  hash is acceptable as long as it is used consistently).
* `json.dumps(obj, sort_keys=True, separators=(",", ":"))` is modelled by
  explicit serializers (`Transaction.json`, `Block.headerJson`) that write
  the keys in sorted order with the separators `,` and `:`, JSON string
  escaping, and Python number formatting (floats always carry a decimal
  point, e.g. `50.0`).  `.encode()` is UTF-8 (`strBytes`).
* Python numbers (`amount`, `timestamp`) are modelled by `PyFloat`, a
  decimal fixed-point number (integer mantissa and decimal exponent):
  the program performs no arithmetic on them apart from `round(t, 6)`,
  and `repr` of a float prints the shortest decimal that round-trips, so
  a decimal carrier reproduces the byte-level behaviour for the
  decimally-representable values in the plain-decimal range.  The
  serializer strips trailing zeros and always prints a decimal point,
  matching Python's float `repr`.
* `round(x, 6)` is modelled by `PyFloat.round6` (round half to even at 10^-6).
* `time.time()` is nondeterministic input, passed as an explicit
  timestamp argument to `create_genesis` and `mine`.
-/
import Mathlib

set_option maxRecDepth 1000000

/-! ## Bytes, hex, UTF-8 -/

/-- Byte sequences (each entry a byte value). -/
abbrev Bytes := List Nat

/-- Value of a hexadecimal digit character (0 for a non-hex character;
`bytes.fromhex` raises there, a case never exercised by the program,
whose hex strings are digest outputs). -/
def hexVal (c : Char) : Nat :=
  if 48 ≤ c.toNat ∧ c.toNat ≤ 57 then c.toNat - 48
  else if 97 ≤ c.toNat ∧ c.toNat ≤ 102 then c.toNat - 87
  else if 65 ≤ c.toNat ∧ c.toNat ≤ 70 then c.toNat - 55
  else 0

/-- Lowercase hexadecimal rendering of a natural number. -/
def natToHex (n : Nat) : String :=
  String.mk (Nat.toDigits 16 n)

/-- Pad a character list with leading `'0'` up to the given length. -/
def padZeros (s : List Char) (len : Nat) : List Char :=
  List.replicate (len - s.length) '0' ++ s

/-- `bytes.fromhex`: decode pairs of hex digits to bytes. -/
def hexPairs : List Char → Bytes
  | c1 :: c2 :: rest => (16 * hexVal c1 + hexVal c2) :: hexPairs rest
  | _ => []

/-- `bytes.fromhex` on a string. -/
def hexDecode (s : String) : Bytes := hexPairs s.data

/-- UTF-8 encoding of one character. -/
def charUtf8 (c : Char) : Bytes :=
  let n := c.toNat
  if n < 128 then [n]
  else if n < 2048 then [192 + n / 64, 128 + n % 64]
  else if n < 65536 then [224 + n / 4096, 128 + n / 64 % 64, 128 + n % 64]
  else [240 + n / 262144, 128 + n / 4096 % 64, 128 + n / 64 % 64, 128 + n % 64]

/-- `str.encode()`: UTF-8 bytes of a string. -/
def strBytes (s : String) : Bytes :=
  s.data.foldr (fun c acc => charUtf8 c ++ acc) []

/-- `str.startswith`: the model of Python's prefix test. -/
def strStartsWith (s p : String) : Bool := p.data.isPrefixOf s.data

/-! ## JSON serialization (json.dumps with sort_keys=True, separators=(",",":")) -/

/-- Four-digit lowercase hex, for `\uXXXX` escapes. -/
def hex4 (n : Nat) : String := String.mk (padZeros (natToHex n).data 4)

/-- JSON escaping of one character, as Python's `json.dumps` with
`ensure_ascii=True` performs it. -/
def escChar (c : Char) : String :=
  if c = '"' then "\\\""
  else if c = '\\' then "\\\\"
  else if c = '\n' then "\\n"
  else if c = '\r' then "\\r"
  else if c = '\t' then "\\t"
  else if c.toNat = 8 then "\\b"
  else if c.toNat = 12 then "\\f"
  else if c.toNat < 32 then "\\u" ++ hex4 c.toNat
  else if c.toNat < 127 then String.singleton c
  else if c.toNat < 65536 then "\\u" ++ hex4 c.toNat
  else
    let m := c.toNat - 65536
    "\\u" ++ hex4 (55296 + m / 1024) ++ "\\u" ++ hex4 (56320 + m % 1024)

/-- A JSON string literal: quote, escape, quote. -/
def jsonStr (s : String) : String :=
  "\"" ++ s.data.foldr (fun c acc => escChar c ++ acc) "" ++ "\""

/-- A Python float, as far as this program uses one: a decimal number
`mant / 10 ^ dexp`.  The program performs no arithmetic on amounts or
timestamps other than `round(t, 6)`, so a decimal fixed-point carrier
reproduces its behaviour exactly on decimally-representable values. -/
structure PyFloat where
  mant : Int
  dexp : Nat
  deriving DecidableEq

/-- Drop trailing decimal zeros: minimal `(mant, dexp)` with the same value. -/
def stripZeros : Int → Nat → Int × Nat
  | m, 0 => (m, 0)
  | m, k + 1 => if m.emod 10 = 0 then stripZeros (m.ediv 10) k else (m, k + 1)

/-- Digits with a decimal point inserted `k` places from the right. -/
def decSplit (digs : List Char) (k : Nat) : String :=
  let ds := padZeros digs (k + 1)
  String.mk (ds.take (ds.length - k)) ++ "." ++ String.mk (ds.drop (ds.length - k))

/-- Python `repr` of a float in the plain-decimal range: shortest decimal
digits, always with a decimal point (`repr(50.0) = "50.0"`). -/
def floatRepr (q : PyFloat) : String :=
  let p := stripZeros q.mant q.dexp
  let sign := if p.1 < 0 then "-" else ""
  if p.2 = 0 then sign ++ toString p.1.natAbs ++ ".0"
  else sign ++ decSplit (toString p.1.natAbs).data p.2

/-- Floor division of `a` by `10 ^ k` rounding half to even (Python's
`round` tie policy). -/
def roundHalfEvenDiv (a : Int) (k : Nat) : Int :=
  let b : Int := 10 ^ k
  let q := a.ediv b
  let r := a.emod b
  if 2 * r < b then q
  else if b < 2 * r then q + 1
  else if q.emod 2 = 0 then q else q + 1

/-- `round(t, 6)`: round to 6 decimal places (a value with 6 or fewer
decimal places is returned unchanged). -/
def PyFloat.round6 (t : PyFloat) : PyFloat :=
  if t.dexp ≤ 6 then t
  else { mant := roundHalfEvenDiv t.mant (t.dexp - 6), dexp := 6 }

/-! ## Data model (Transaction, Block) -/

/-- `Transaction(sender, recipient, amount)`. -/
structure Transaction where
  sender : String
  recipient : String
  amount : PyFloat
  deriving DecidableEq

/-- `json.dumps(asdict(self), sort_keys=True, separators=(",", ":"))`:
keys in sorted order `amount < recipient < sender`. -/
def Transaction.json (t : Transaction) : String :=
  "\x7b\"amount\":" ++ floatRepr t.amount ++
  ",\"recipient\":" ++ jsonStr t.recipient ++
  ",\"sender\":" ++ jsonStr t.sender ++ "\x7d"

/-- `Transaction.hash`: `jhash(asdict(self))` = digest of the UTF-8 bytes of
the canonical JSON of the three fields. -/
def Transaction.hash (d : Bytes → String) (t : Transaction) : String :=
  d (strBytes t.json)

/-- `Block(index, timestamp, prev_hash, merkle_root, nonce, transactions)`. -/
structure Block where
  index : Nat
  timestamp : PyFloat
  prev_hash : String
  merkle_root : String
  nonce : Nat
  transactions : List Transaction
  deriving DecidableEq

/-- Serialization of `header_dict()` by `json.dumps(..., sort_keys=True,
separators=(",", ":"))`: the five header fields, keys in sorted order
`index < merkle_root < nonce < prev_hash < timestamp`, the timestamp
rounded to 6 decimal places.  The transaction list is absent. -/
def Block.headerJson (b : Block) : String :=
  "\x7b\"index\":" ++ toString b.index ++
  ",\"merkle_root\":" ++ jsonStr b.merkle_root ++
  ",\"nonce\":" ++ toString b.nonce ++
  ",\"prev_hash\":" ++ jsonStr b.prev_hash ++
  ",\"timestamp\":" ++ floatRepr b.timestamp.round6 ++ "\x7d"

/-- `Block.hash`: `jhash(self.header_dict())`. -/
def Block.hash (d : Bytes → String) (b : Block) : String :=
  d (strBytes b.headerJson)

/-- `block.nonce = n` (the only field the mining loop mutates). -/
def Block.setNonce (b : Block) (n : Nat) : Block :=
  { b with nonce := n }

/-! ## Merkle root (source algorithm) -/

/-- One pair combination: `sha256(bytes.fromhex(x) + bytes.fromhex(y))`. -/
def combine (d : Bytes → String) (x y : String) : String :=
  d (hexDecode x ++ hexDecode y)

/-- `if len(layer) % 2 == 1: layer.append(layer[-1])` — duplicate the
last element when the layer has odd length. -/
def padLayer (l : List String) : List String :=
  if l.length % 2 = 1 then l ++ l.drop (l.length - 1) else l

/-- The inner `for i in range(0, len(layer), 2)` loop: combine adjacent
pairs (the layer has even length when this runs). -/
def pairUp (d : Bytes → String) : List String → List String
  | x :: y :: rest => combine d x y :: pairUp d rest
  | _ => []

theorem pairUp_length (d : Bytes → String) (l : List String) :
    (pairUp d l).length = l.length / 2 := by
  match l with
  | [] => simp [pairUp]
  | [x] => simp [pairUp]
  | x :: y :: rest =>
    simp only [pairUp, List.length_cons, pairUp_length d rest]
    omega

theorem padLayer_length (l : List String) :
    (padLayer l).length = if l.length % 2 = 1 then l.length + 1 else l.length := by
  by_cases h : l.length % 2 = 1
  · have hne : l.length - 1 < l.length := by omega
    simp [padLayer, h, List.length_drop]
    omega
  · simp [padLayer, h]

/-- The `while len(layer) > 1` loop of `merkle_root`.  The `fuel`
argument only bounds the number of layer reductions so that the
recursion is structural; each reduction strictly shrinks a layer of
length ≥ 2, so the initial layer length always suffices
(`merkleLoop_fuel`), and the fuel-exhausted branch is unreachable. -/
def merkleLoop (d : Bytes → String) : Nat → List String → String
  | _, [] => ""
  | _, [x] => x
  | 0, x :: _ :: _ => x
  | fuel + 1, x :: y :: rest => merkleLoop d fuel (pairUp d (padLayer (x :: y :: rest)))

/-- The fuel bound in `merkleLoop` is inessential: any two sufficient
budgets give the same result. -/
theorem merkleLoop_fuel (d : Bytes → String) :
    ∀ fuel fuel' l, l.length ≤ fuel + 1 → l.length ≤ fuel' + 1 →
      merkleLoop d fuel l = merkleLoop d fuel' l
  | fuel, fuel', [], _, _ => by cases fuel <;> cases fuel' <;> rfl
  | fuel, fuel', [x], _, _ => by cases fuel <;> cases fuel' <;> rfl
  | 0, _, x :: y :: rest, h, _ => by simp only [List.length_cons] at h; omega
  | _ + 1, 0, x :: y :: rest, _, h' => by simp only [List.length_cons] at h'; omega
  | fuel + 1, fuel' + 1, x :: y :: rest, h, h' => by
      simp only [List.length_cons] at h h'
      simp only [merkleLoop]
      apply merkleLoop_fuel d fuel fuel'
      · simp only [pairUp_length, padLayer_length, List.length_cons]
        split <;> omega
      · simp only [pairUp_length, padLayer_length, List.length_cons]
        split <;> omega
termination_by _ _ l => l.length
decreasing_by
  simp only [pairUp_length, padLayer_length, List.length_cons]
  split <;> omega

/-- `merkle_root(hashes)` from the source: digest of the empty byte string
for an empty list, else the layer-reduction loop starting from the input. -/
def merkle_root (d : Bytes → String) (hashes : List String) : String :=
  match hashes with
  | [] => d []
  | l => merkleLoop d l.length l

/-! ## Difficulty -/

/-- `DIFFICULTY_PREFIX = "00000"` (src/blockchain/Blockchain.py line 37). -/
def DIFFICULTY_PREFIX : String := "00000"

/-! ## Blockchain (ledger state and operations) -/

/-- Ledger state: the chain and the pending-transaction pool. -/
structure Blockchain where
  chain : List Block
  mem_pool : List Transaction
  deriving DecidableEq

/-- The synthetic genesis transaction `Transaction("network", "satoshi", 50.0)`. -/
def genesis_tx : Transaction :=
  { sender := "network", recipient := "satoshi", amount := { mant := 50, dexp := 0 } }

/-- The genesis block built by `create_genesis` at timestamp `ts`. -/
def create_genesis (d : Bytes → String) (ts : PyFloat) : Block :=
  { index := 0
    timestamp := ts
    prev_hash := String.mk (List.replicate 64 '0')
    merkle_root := merkle_root d [genesis_tx.hash d]
    nonce := 0
    transactions := [genesis_tx] }

/-- `Blockchain.__init__`: empty mempool, chain holding only the genesis block. -/
def Blockchain.init (d : Bytes → String) (ts : PyFloat) : Blockchain :=
  { chain := [create_genesis d ts], mem_pool := [] }

/-- `add_transaction(sender, recipient, amount)`: append to the mempool. -/
def add_transaction (bc : Blockchain) (s r : String) (a : PyFloat) : Blockchain :=
  { bc with mem_pool := bc.mem_pool ++ [{ sender := s, recipient := r, amount := a }] }

/-- The mining reward transaction `Transaction("network", miner_address, 6.25)`. -/
def reward_tx (miner : String) : Transaction :=
  { sender := "network", recipient := miner, amount := { mant := 625, dexp := 2 } }

/-- The candidate block `mine` constructs before the nonce search:
index = current chain length, previous hash = digest of the last block's
header, Merkle root over the reward transaction followed by the mempool,
nonce 0. -/
def candidate (d : Bytes → String) (bc : Blockchain) (miner : String) (ts : PyFloat)
    (lb : Block) : Block :=
  { index := bc.chain.length
    timestamp := ts
    prev_hash := lb.hash d
    merkle_root := merkle_root d ((reward_tx miner :: bc.mem_pool).map (Transaction.hash d))
    nonce := 0
    transactions := reward_tx miner :: bc.mem_pool }

/-- The `for n in range(max_tries)` proof-of-work loop: try nonces
`n0, n0 + 1, ...` while fuel lasts, returning the first nonce whose
header digest starts with the difficulty prefix. -/
def tryNonces (d : Bytes → String) (b : Block) : Nat → Nat → Option Nat
  | 0, _ => none
  | fuel + 1, n =>
    if strStartsWith ((b.setNonce n).hash d) DIFFICULTY_PREFIX then some n
    else tryNonces d b fuel (n + 1)

/-- The nonce search of `mine`, candidates `0, 1, ..., max_tries - 1`. -/
def findNonce (d : Bytes → String) (b : Block) (max_tries : Nat) : Option Nat :=
  tryNonces d b max_tries 0

/-- `mine(miner_address, max_tries)` at timestamp `ts`: build the candidate
block, search for a nonce; on success append the block (with the winning
nonce) and clear the mempool, on exhaustion return `none` and leave the
state untouched.  The empty-chain case cannot arise after construction
(genesis always exists); it returns failure without touching the state. -/
def mine (d : Bytes → String) (bc : Blockchain) (miner : String) (ts : PyFloat)
    (max_tries : Nat) : Option Block × Blockchain :=
  match bc.chain.getLast? with
  | none => (none, bc)
  | some lb =>
    let b := candidate d bc miner ts lb
    match findNonce d b max_tries with
    | some n =>
      let blk := b.setNonce n
      (some blk, { chain := bc.chain ++ [blk], mem_pool := [] })
    | none => (none, bc)

/-- The three per-block checks of `valid_chain` for a block `b` whose
predecessor is `prev`: linkage, proof of work, Merkle-root recomputation
(`&&` short-circuits in the source's order). -/
def checkBlock (d : Bytes → String) (prev b : Block) : Bool :=
  (b.prev_hash == prev.hash d) &&
  strStartsWith (b.hash d) DIFFICULTY_PREFIX &&
  (merkle_root d (b.transactions.map (Transaction.hash d)) == b.merkle_root)

/-- The `for i in range(1, len(chain))` loop of `valid_chain`, carrying the
previous block. -/
def validFrom (d : Bytes → String) : Block → List Block → Bool
  | _, [] => true
  | prev, b :: rest => checkBlock d prev b && validFrom d b rest

/-- `valid_chain()`: walk the chain from index 1, checking each block
against its predecessor (an empty or one-block chain is valid). -/
def valid_chain (d : Bytes → String) (bc : Blockchain) : Bool :=
  match bc.chain with
  | [] => true
  | g :: rest => validFrom d g rest

/-! ## Reference Merkle definition (from the spec's words, for refinement) -/

/-- Modelled from the spec (§4.2), as the reference point of the
refinement claim about `merkle_root`: one pairwise reduction step —
decode each hex digest, concatenate left‖right, re-digest; a layer of
odd length has its last element duplicated before pairing. -/
def specPairs (d : Bytes → String) : List String → List String
  | [] => []
  | [x] => [combine d x x]
  | x :: y :: rest => combine d x y :: specPairs d rest

theorem specPairs_length (d : Bytes → String) (l : List String) :
    (specPairs d l).length = (l.length + 1) / 2 := by
  match l with
  | [] => simp [specPairs]
  | [x] => simp [specPairs]
  | x :: y :: rest =>
    simp only [specPairs, List.length_cons, specPairs_length d rest]
    omega

/-- Modelled from the spec (§4.2): empty input gives the digest of the
empty byte sequence, a single digest is returned unchanged, otherwise
layers are reduced pairwise until one digest remains. -/
def merkleRootSpec (d : Bytes → String) : List String → String
  | [] => d []
  | [x] => x
  | x :: y :: rest => merkleRootSpec d (specPairs d (x :: y :: rest))
termination_by l => l.length
decreasing_by
  simp only [specPairs_length, List.length_cons]
  omega

/-! ## Post-append mutations (tamper-detection claim) -/

/-- A mutation of one stored field of a block: one transaction's amount,
or the block's index, timestamp, previous hash, Merkle root, or nonce. -/
inductive Mutation where
  | amount (txIdx : Nat) (new : PyFloat)
  | index (new : Nat)
  | timestamp (new : PyFloat)
  | prevHash (new : String)
  | merkleRoot (new : String)
  | nonce (new : Nat)

/-- Overwrite the amount of the transaction at position `i` (out-of-range
leaves the list unchanged). -/
def setAmountAt : List Transaction → Nat → PyFloat → List Transaction
  | [], _, _ => []
  | t :: ts, 0, a => { t with amount := a } :: ts
  | t :: ts, i + 1, a => t :: setAmountAt ts i a

/-- Apply a single-field mutation to a stored block. -/
def applyMutation (b : Block) : Mutation → Block
  | .amount i a => { b with transactions := setAmountAt b.transactions i a }
  | .index n => { b with index := n }
  | .timestamp t => { b with timestamp := t }
  | .prevHash h => { b with prev_hash := h }
  | .merkleRoot r => { b with merkle_root := r }
  | .nonce n => { b with nonce := n }

/-- The mutation stores a value different from the original one (and, for
a transaction amount, targets an existing transaction). -/
def mutChanges (b : Block) : Mutation → Prop
  | .amount i a => ∃ t, b.transactions.get? i = some t ∧ t.amount ≠ a
  | .index n => b.index ≠ n
  | .timestamp t => b.timestamp ≠ t
  | .prevHash h => b.prev_hash ≠ h
  | .merkleRoot r => b.merkle_root ≠ r
  | .nonce n => b.nonce ≠ n

/-- For a mutation of a field that validation sees only through the
header digest (index, timestamp, nonce): the digest of the mutated
header differs from the original one, and when the block is the last of
the chain — where only the difficulty check constrains its digest — the
mutated digest moreover fails the difficulty prefix. -/
def headerMutDetected (d : Bytes → String) (c : List Block) (i : Nat) (b b' : Block) : Prop :=
  if i + 1 < c.length then b'.hash d ≠ b.hash d
  else strStartsWith (b'.hash d) DIFFICULTY_PREFIX = false

/-- The collision-freeness side condition under which a single-field
mutation of the block `b` stored at position `i` is detectable:
`prev_hash` and `merkle_root` mutations are detected unconditionally,
an amount mutation needs the recomputed Merkle root to differ from the
stored one, and header-only fields need `headerMutDetected`. -/
def mutationDetected (d : Bytes → String) (c : List Block) (i : Nat) (b : Block) :
    Mutation → Prop
  | .prevHash _ => True
  | .merkleRoot _ => True
  | .amount j a =>
      merkle_root d ((applyMutation b (.amount j a)).transactions.map (Transaction.hash d)) ≠
        b.merkle_root
  | .index n => headerMutDetected d c i b (applyMutation b (.index n))
  | .timestamp t => headerMutDetected d c i b (applyMutation b (.timestamp t))
  | .nonce n => headerMutDetected d c i b (applyMutation b (.nonce n))

/-! ## Reachable ledger states -/

/-- Ledger states reachable from construction (which creates the genesis
block) through `add_transaction` calls and successful `mine` calls.
A failed `mine` call returns the state unchanged, so it adds no states. -/
inductive Reachable (d : Bytes → String) : Blockchain → Prop where
  | genesis (ts : PyFloat) : Reachable d (Blockchain.init d ts)
  | addTx {bc : Blockchain} (s r : String) (a : PyFloat) :
      Reachable d bc → Reachable d (add_transaction bc s r a)
  | mined {bc bc' : Blockchain} (miner : String) (ts : PyFloat) (k : Nat) (blk : Block) :
      Reachable d bc → mine d bc miner ts k = (some blk, bc') → Reachable d bc'

/-! ## A concrete digest function and concrete ledger states (witness data)

`toyDigest` plays the role of the external hash in concrete runs: it maps
any byte sequence to 64 hex characters beginning with the difficulty
prefix, so mining succeeds at once and every run below is cheap to
evaluate inside the kernel.  Distinct byte sums give distinct digests. -/

/-- A concrete stand-in digest: `"00000"` followed by the byte sum in hex,
padded to 59 characters (64 hex characters in total). -/
def toyDigest (b : Bytes) : String :=
  "00000" ++ String.mk (padZeros (natToHex (b.foldl (fun a x => a + x) 0)).data 59)

/-- Timestamp `1.0` for the witness genesis. -/
def ts1 : PyFloat := { mant := 1, dexp := 0 }

/-- Timestamp `2.0` for the first witness mine call. -/
def ts2 : PyFloat := { mant := 2, dexp := 0 }

/-- Witness ledger: fresh construction at timestamp `ts1`. -/
def wGen : Blockchain := Blockchain.init toyDigest ts1

/-- Witness ledger: one pending transaction Alice→Bob of 1.2. -/
def wPool : Blockchain := add_transaction wGen "Alice" "Bob" { mant := 12, dexp := 1 }

/-- The block mined from `wPool` (the nonce search succeeds at nonce 0). -/
def wBlock : Block :=
  (candidate toyDigest wPool "miner1" ts2 (create_genesis toyDigest ts1)).setNonce 0

/-- Witness ledger after the successful mine call. -/
def wMined : Blockchain := { chain := wPool.chain ++ [wBlock], mem_pool := [] }

/-! ## Characterizing validation -/

theorem validFrom_eq_chain (d : Bytes → String) (p : Block) (l : List Block) :
    validFrom d p l = true ↔ List.Chain' (fun a b => checkBlock d a b = true) (p :: l) := by
  induction l generalizing p with
  | nil => simp [validFrom]
  | cons b rest ih =>
    simp only [validFrom, Bool.and_eq_true, List.chain'_cons, ih]

theorem valid_chain_eq_chain (d : Bytes → String) (bc : Blockchain) :
    valid_chain d bc = true ↔
      List.Chain' (fun a b => checkBlock d a b = true) bc.chain := by
  obtain ⟨c, mp⟩ := bc
  cases c with
  | nil => simp [valid_chain]
  | cons g rest => simpa [valid_chain] using validFrom_eq_chain d g rest

theorem valid_chain_get (d : Bytes → String) (bc : Blockchain) :
    valid_chain d bc = true ↔
      ∀ (j : Nat) (h : j + 1 < bc.chain.length),
        checkBlock d (bc.chain.get ⟨j, by omega⟩) (bc.chain.get ⟨j + 1, h⟩) = true := by
  rw [valid_chain_eq_chain, List.chain'_iff_get]
  constructor
  · intro h j hj
    exact h j (by omega)
  · intro h j hj
    exact h j (by omega)

theorem checkBlock_eq (d : Bytes → String) (prev b : Block) :
    checkBlock d prev b = true ↔
      b.prev_hash = prev.hash d ∧
      strStartsWith (b.hash d) DIFFICULTY_PREFIX = true ∧
      merkle_root d (b.transactions.map (Transaction.hash d)) = b.merkle_root := by
  simp [checkBlock, Bool.and_eq_true, beq_iff_eq, and_assoc]

/-! ## The nonce search -/

theorem tryNonces_some_spec (d : Bytes → String) (b : Block) :
    ∀ fuel n0 n, tryNonces d b fuel n0 = some n →
      n0 ≤ n ∧ n < n0 + fuel ∧
      strStartsWith ((b.setNonce n).hash d) DIFFICULTY_PREFIX = true ∧
      ∀ j, n0 ≤ j → j < n →
        strStartsWith ((b.setNonce j).hash d) DIFFICULTY_PREFIX = false := by
  intro fuel
  induction fuel with
  | zero => intro n0 n h; simp [tryNonces] at h
  | succ fuel ih =>
    intro n0 n h
    simp only [tryNonces] at h
    split at h
    case isTrue hp =>
      injection h with h
      subst h
      exact ⟨Nat.le_refl _, by omega, hp, fun j hj1 hj2 => by omega⟩
    case isFalse hp =>
      obtain ⟨h1, h2, h3, h4⟩ := ih (n0 + 1) n h
      simp only [Bool.not_eq_true] at hp
      refine ⟨by omega, by omega, h3, ?_⟩
      intro j hj1 hj2
      rcases Nat.eq_or_lt_of_le hj1 with rfl | hgt
      · exact hp
      · exact h4 j hgt hj2

theorem tryNonces_none_spec (d : Bytes → String) (b : Block) :
    ∀ fuel n0, tryNonces d b fuel n0 = none →
      ∀ j, n0 ≤ j → j < n0 + fuel →
        strStartsWith ((b.setNonce j).hash d) DIFFICULTY_PREFIX = false := by
  intro fuel
  induction fuel with
  | zero => intro n0 _ j hj1 hj2; omega
  | succ fuel ih =>
    intro n0 h j hj1 hj2
    simp only [tryNonces] at h
    split at h
    case isTrue hp => exact absurd h (by simp)
    case isFalse hp =>
      simp only [Bool.not_eq_true] at hp
      rcases Nat.eq_or_lt_of_le hj1 with rfl | hgt
      · exact hp
      · exact ih (n0 + 1) h j hgt (by omega)

/-! ## Destructuring `mine` -/

theorem mine_success_spec (d : Bytes → String) (bc : Blockchain) (miner : String)
    (ts : PyFloat) (k : Nat) (blk : Block) (bc' : Blockchain)
    (h : mine d bc miner ts k = (some blk, bc')) :
    ∃ lb n, bc.chain.getLast? = some lb ∧
      findNonce d (candidate d bc miner ts lb) k = some n ∧
      blk = (candidate d bc miner ts lb).setNonce n ∧
      bc' = { chain := bc.chain ++ [blk], mem_pool := [] } := by
  unfold mine at h
  cases hlb : bc.chain.getLast? with
  | none => rw [hlb] at h; simp at h
  | some lb =>
    rw [hlb] at h
    simp only at h
    cases hf : findNonce d (candidate d bc miner ts lb) k with
    | none => rw [hf] at h; simp at h
    | some n =>
      rw [hf] at h
      simp only [Prod.mk.injEq, Option.some.injEq] at h
      obtain ⟨h1, h2⟩ := h
      subst h1
      exact ⟨lb, n, rfl, hf, rfl, h2.symm⟩

theorem mine_none_state (d : Bytes → String) (bc : Blockchain) (miner : String)
    (ts : PyFloat) (k : Nat) (bc' : Blockchain)
    (h : mine d bc miner ts k = (none, bc')) : bc' = bc := by
  unfold mine at h
  cases hlb : bc.chain.getLast? with
  | none => rw [hlb] at h; simp only [Prod.mk.injEq] at h; exact h.2.symm
  | some lb =>
    rw [hlb] at h
    simp only at h
    cases hf : findNonce d (candidate d bc miner ts lb) k with
    | none =>
      rw [hf] at h
      simp only [Prod.mk.injEq] at h
      exact h.2.symm
    | some n => rw [hf] at h; simp at h

/-! ## The reachability invariant -/

theorem merkle_root_singleton (d : Bytes → String) (x : String) :
    merkle_root d [x] = x := rfl

theorem reachable_props (d : Bytes → String) (bc : Blockchain) (h : Reachable d bc) :
    valid_chain d bc = true ∧
    bc.chain ≠ [] ∧
    (∀ b ∈ bc.chain, b.merkle_root = merkle_root d (b.transactions.map (Transaction.hash d))) ∧
    (∀ g, bc.chain.head? = some g → g.merkle_root = Transaction.hash d genesis_tx) := by
  induction h with
  | genesis ts =>
    refine ⟨?_, by simp [Blockchain.init], ?_, ?_⟩
    · rw [valid_chain_eq_chain]
      simp [Blockchain.init]
    · intro b hb
      simp only [Blockchain.init, List.mem_singleton] at hb
      subst hb
      rfl
    · intro g hg
      simp only [Blockchain.init, List.head?_cons, Option.some.injEq] at hg
      subst hg
      rfl
  | addTx s r a hr ih => simpa [add_transaction] using ih
  | @mined bc bc' miner ts k blk hr hm ih =>
    obtain ⟨hv, hne, hminv, hhead⟩ := ih
    obtain ⟨lb, n, hlb, hf, hblk, hbc'⟩ := mine_success_spec _ _ _ _ _ _ _ hm
    subst hbc'
    have hpow := (tryNonces_some_spec d (candidate d bc miner ts lb) k 0 n
      (by simpa [findNonce] using hf)).2.2.1
    refine ⟨?_, by simp, ?_, ?_⟩
    · rw [valid_chain_eq_chain]
      simp only [List.chain'_append]
      refine ⟨(valid_chain_eq_chain d bc).mp hv, List.chain'_singleton _, ?_⟩
      intro x hx y hy
      simp only [hlb, Option.mem_def, Option.some.injEq] at hx
      simp only [List.head?_cons, Option.mem_def, Option.some.injEq] at hy
      subst hx
      subst hy
      rw [checkBlock_eq]
      subst hblk
      exact ⟨rfl, hpow, rfl⟩
    · intro b hb
      rcases List.mem_append.mp hb with hbl | hbr
      · exact hminv b hbl
      · simp only [List.mem_singleton] at hbr
        subst hbr
        subst hblk
        rfl
    · intro g hg
      cases hc : bc.chain with
      | nil => exact absurd hc hne
      | cons g0 rest =>
        rw [hc] at hg
        simp only [List.cons_append, List.head?_cons, Option.some.injEq] at hg
        subst hg
        exact hhead g0 (by rw [hc]; rfl)

/-! ## Merkle refinement lemmas -/

theorem padLayer_cons_cons (x y : String) (rest : List String) :
    padLayer (x :: y :: rest) = x :: y :: padLayer rest := by
  unfold padLayer
  simp only [List.length_cons]
  by_cases h : rest.length % 2 = 1
  · rw [if_pos (by omega : (rest.length + 1 + 1) % 2 = 1), if_pos h]
    have hd : (x :: y :: rest).drop (rest.length + 1 + 1 - 1) = rest.drop (rest.length - 1) := by
      obtain ⟨m, hm⟩ : ∃ m, rest.length = m + 1 := ⟨rest.length - 1, by omega⟩
      rw [hm]
      simp [List.drop_succ_cons]
    rw [hd]
    simp [List.cons_append]
  · rw [if_neg (by omega : ¬((rest.length + 1 + 1) % 2 = 1)), if_neg h]

theorem specPairs_eq_pairUp (d : Bytes → String) : ∀ l, specPairs d l = pairUp d (padLayer l)
  | [] => by simp [specPairs, padLayer, pairUp]
  | [x] => by simp [specPairs, padLayer, pairUp, combine]
  | x :: y :: rest => by
      rw [padLayer_cons_cons]
      simp only [specPairs, pairUp]
      rw [specPairs_eq_pairUp d rest]

theorem merkleLoop_eq_spec (d : Bytes → String) :
    ∀ fuel l, l ≠ [] → l.length ≤ fuel + 1 → merkleLoop d fuel l = merkleRootSpec d l
  | _, [], hne, _ => absurd rfl hne
  | fuel, [x], _, _ => by cases fuel <;> simp [merkleLoop, merkleRootSpec]
  | 0, x :: y :: rest, _, h => by simp only [List.length_cons] at h; omega
  | fuel + 1, x :: y :: rest, _, h => by
      simp only [List.length_cons] at h
      simp only [merkleLoop]
      rw [merkleLoop_eq_spec d fuel _
        (by
          intro hnil
          have := congrArg List.length hnil
          simp only [pairUp_length, padLayer_length, List.length_cons, List.length_nil] at this
          split at this <;> omega)
        (by simp only [pairUp_length, padLayer_length, List.length_cons]; split <;> omega)]
      rw [← specPairs_eq_pairUp]
      conv_rhs => rw [merkleRootSpec]
termination_by fuel _ => fuel

/-! ## Claim theorems -/

/-- C2: for every ledger state reachable from construction (which creates
the genesis block) through any sequence of `submitTransaction`
(`add_transaction`) calls and zero or more successful `mine` calls,
`isValid()` (`valid_chain`) returns true. -/
theorem reachable_valid (d : Bytes → String) (bc : Blockchain)
    (h : Reachable d bc) : valid_chain d bc = true :=
  (reachable_props d bc h).1

/-- C3: `isValid()` returns true iff every block at index `i ≥ 1` links to
the header digest of its predecessor, has a header digest starting with
the difficulty prefix, and stores a Merkle root equal to the one
recomputed from the identity digests of its transactions in stored
order; the genesis block is skipped, so a chain of length 1 is valid. -/
theorem valid_chain_characterization (d : Bytes → String) (bc : Blockchain) :
    valid_chain d bc = true ↔
      ∀ (j : Nat) (h : j + 1 < bc.chain.length),
        (bc.chain.get ⟨j + 1, h⟩).prev_hash = (bc.chain.get ⟨j, by omega⟩).hash d ∧
        strStartsWith ((bc.chain.get ⟨j + 1, h⟩).hash d) DIFFICULTY_PREFIX = true ∧
        merkle_root d ((bc.chain.get ⟨j + 1, h⟩).transactions.map (Transaction.hash d)) =
          (bc.chain.get ⟨j + 1, h⟩).merkle_root := by
  rw [valid_chain_get]
  exact forall_congr' fun j => forall_congr' fun h => checkBlock_eq d _ _

/-- C4: the proof-of-work search tries nonces 0, 1, 2, … in order on the
candidate block (timestamp, merkle root, index and previous hash held
fixed), so a successful `mine` returns the candidate with the least
satisfying nonce below the bound, and reports failure when no nonce
below the bound satisfies the difficulty prefix. -/
theorem mine_sequential_search (d : Bytes → String) (bc : Blockchain) (miner : String)
    (ts : PyFloat) (k : Nat) (lb : Block) (hlb : bc.chain.getLast? = some lb) :
    (∀ blk bc', mine d bc miner ts k = (some blk, bc') →
       blk = (candidate d bc miner ts lb).setNonce blk.nonce ∧
       blk.nonce < k ∧
       strStartsWith (blk.hash d) DIFFICULTY_PREFIX = true ∧
       (∀ j, j < blk.nonce →
         strStartsWith (((candidate d bc miner ts lb).setNonce j).hash d)
           DIFFICULTY_PREFIX = false)) ∧
    (∀ bc', mine d bc miner ts k = (none, bc') →
       ∀ j, j < k →
         strStartsWith (((candidate d bc miner ts lb).setNonce j).hash d)
           DIFFICULTY_PREFIX = false) := by
  constructor
  · intro blk bc' h
    obtain ⟨lb', n, hlb', hf, hblk, hbc'⟩ := mine_success_spec _ _ _ _ _ _ _ h
    rw [hlb] at hlb'
    injection hlb' with hlb'
    subst hlb'
    obtain ⟨_, hlt, hpow, hleast⟩ := tryNonces_some_spec d _ k 0 n
      (by simpa [findNonce] using hf)
    subst hblk
    exact ⟨rfl, show n < k by omega, hpow, fun j hj => hleast j (by omega) hj⟩
  · intro bc' h
    unfold mine at h
    rw [hlb] at h
    simp only at h
    cases hf : findNonce d (candidate d bc miner ts lb) k with
    | some n => rw [hf] at h; simp at h
    | none =>
      intro j hj
      exact tryNonces_none_spec d _ k 0 (by simpa [findNonce] using hf) j (by omega) (by omega)

/-- C5: whenever `mine` exhausts its attempt bound (including a bound of
0), it returns the failure value `none` and the ledger state — chain and
mempool — is exactly the state before the call. -/
theorem mine_failure_preserves_state (d : Bytes → String) (bc : Blockchain)
    (miner : String) (ts : PyFloat) (k : Nat) (bc' : Blockchain)
    (h : mine d bc miner ts k = (none, bc')) : bc' = bc :=
  mine_none_state d bc miner ts k bc' h

/-- C6: after a successful `mine` call the mempool is empty, the chain
grew by exactly the returned block, whose index is the chain length
before the call and whose `prev_hash` is the header digest of the block
that was the chain's last element before the call. -/
theorem mine_success_postcondition (d : Bytes → String) (bc : Blockchain) (miner : String)
    (ts : PyFloat) (k : Nat) (blk : Block) (bc' : Blockchain) (lb : Block)
    (hlb : bc.chain.getLast? = some lb)
    (h : mine d bc miner ts k = (some blk, bc')) :
    bc'.mem_pool = [] ∧
    bc'.chain.length = bc.chain.length + 1 ∧
    bc'.chain = bc.chain ++ [blk] ∧
    blk.index = bc.chain.length ∧
    blk.prev_hash = lb.hash d := by
  obtain ⟨lb', n, hlb', hf, hblk, hbc'⟩ := mine_success_spec _ _ _ _ _ _ _ h
  rw [hlb] at hlb'
  injection hlb' with hlb'
  subst hlb'
  subst hbc'
  subst hblk
  exact ⟨rfl, by simp, rfl, rfl, rfl⟩

/-- C7: the mined block's transaction sequence is the reward transaction
`⟨"network", minerAddress, 6.25⟩` followed by the mempool's transactions
in insertion order, and its Merkle root is computed over the identity
digests of exactly that sequence in that order. -/
theorem mine_reward_first (d : Bytes → String) (bc : Blockchain) (miner : String)
    (ts : PyFloat) (k : Nat) (blk : Block) (bc' : Blockchain)
    (h : mine d bc miner ts k = (some blk, bc')) :
    blk.transactions = reward_tx miner :: bc.mem_pool ∧
    blk.merkle_root =
      merkle_root d ((reward_tx miner :: bc.mem_pool).map (Transaction.hash d)) := by
  obtain ⟨lb, n, hlb, hf, hblk, hbc'⟩ := mine_success_spec _ _ _ _ _ _ _ h
  subst hblk
  exact ⟨rfl, rfl⟩

/-- C8: the source `merkle_root` equals the reference definition from the
spec — digest of the empty byte sequence for the empty input, a single
digest unchanged, otherwise repeated pairwise reduction duplicating the
last element of odd layers. -/
theorem merkle_root_eq_spec (d : Bytes → String) (hashes : List String) :
    merkle_root d hashes = merkleRootSpec d hashes := by
  match hashes with
  | [] => simp [merkle_root, merkleRootSpec]
  | x :: rest =>
    simp only [merkle_root]
    exact merkleLoop_eq_spec d (x :: rest).length (x :: rest) (by simp) (by omega)

/-- C9: the header digest is a function of exactly the five header fields
(index, timestamp rounded to 6 decimal places, previous hash, Merkle
root, nonce): two blocks agreeing on them — in particular blocks
differing only in their transaction lists or below the rounding
precision — have equal header digests. -/
theorem header_digest_header_fields_only (d : Bytes → String) (b1 b2 : Block)
    (hidx : b1.index = b2.index)
    (hts : b1.timestamp.round6 = b2.timestamp.round6)
    (hprev : b1.prev_hash = b2.prev_hash)
    (hroot : b1.merkle_root = b2.merkle_root)
    (hnonce : b1.nonce = b2.nonce) :
    b1.hash d = b2.hash d := by
  unfold Block.hash Block.headerJson
  rw [hidx, hts, hprev, hroot, hnonce]

/-- C10: in every reachable ledger state, every block of the chain —
including the genesis block, which validation never checks — stores a
`merkle_root` equal to `merkle_root` of the identity digests of its own
transactions in stored order, and the genesis block's Merkle root is the
identity digest of its single synthetic transaction. -/
theorem stored_merkle_roots_correct (d : Bytes → String) (bc : Blockchain)
    (h : Reachable d bc) :
    (∀ b ∈ bc.chain, b.merkle_root = merkle_root d (b.transactions.map (Transaction.hash d))) ∧
    (∀ g, bc.chain.head? = some g → g.merkle_root = Transaction.hash d genesis_tx) :=
  ⟨(reachable_props d bc h).2.2.1, (reachable_props d bc h).2.2.2⟩

/-! ## Tamper detection -/

theorem valid_chain_opt (d : Bytes → String) (bc : Blockchain) :
    valid_chain d bc = true ↔
      ∀ j prev cur, bc.chain[j]? = some prev → bc.chain[j + 1]? = some cur →
        checkBlock d prev cur = true := by
  rw [valid_chain_get]
  constructor
  · intro h j prev cur hp hc
    obtain ⟨hpl, hpe⟩ := List.getElem?_eq_some_iff.mp hp
    obtain ⟨hcl, hce⟩ := List.getElem?_eq_some_iff.mp hc
    calc checkBlock d prev cur
        = checkBlock d (bc.chain.get ⟨j, hpl⟩) (bc.chain.get ⟨j + 1, hcl⟩) := by
          simp only [List.get_eq_getElem]
          rw [hpe, hce]
      _ = true := h j hcl
  · intro h j hj
    exact h j _ _ (by simp [List.get_eq_getElem]) (by simp [List.get_eq_getElem])

theorem tamper_check_mut (d : Bytes → String) (ch : List Block) (mp : List Transaction)
    (j : Nat) (b' : Block) (prevB : Block)
    (hprev : ch[j]? = some prevB)
    (hlen : j + 1 < ch.length)
    (hmut : valid_chain d { chain := ch.set (j + 1) b', mem_pool := mp } = true) :
    checkBlock d prevB b' = true := by
  have hmutp := (valid_chain_opt d _).mp hmut
  exact hmutp j prevB b'
    (by rw [List.getElem?_set_ne (by omega : j + 1 ≠ j)]; exact hprev)
    (List.getElem?_set_self hlen)

/-- C1 (amended): in a valid chain, mutating a single stored field of the
block at position `i ≥ 1` to a different value makes `valid_chain`
return false, provided the mutation is detectable: unconditionally for
`prev_hash` and `merkle_root`; for a transaction amount when the
recomputed Merkle root differs from the stored one; for the header-only
fields (index, timestamp, nonce) when the mutated header digest differs
from the original and — when the block is the last, where only the
difficulty check constrains its digest — fails the difficulty prefix. -/
theorem tamper_detection_amended (d : Bytes → String) (bc : Blockchain) (i : Nat)
    (b : Block) (m : Mutation)
    (hv : valid_chain d bc = true)
    (h1 : 1 ≤ i)
    (hb : bc.chain[i]? = some b)
    (hc : mutChanges b m)
    (hd : mutationDetected d bc.chain i b m) :
    valid_chain d { chain := bc.chain.set i (applyMutation b m),
                    mem_pool := bc.mem_pool } = false := by
  obtain ⟨j, rfl⟩ : ∃ j, i = j + 1 := ⟨i - 1, by omega⟩
  rw [Bool.eq_false_iff]
  intro hmut
  have hilen : j + 1 < bc.chain.length := (List.getElem?_eq_some_iff.mp hb).1
  have hprev : bc.chain[j]? = some (bc.chain.get ⟨j, by omega⟩) := by
    simp [List.get_eq_getElem]
  have hvp := (valid_chain_opt d bc).mp hv
  have hmc' := (checkBlock_eq d _ _).mp
    (tamper_check_mut d bc.chain bc.mem_pool j (applyMutation b m) _ hprev hilen hmut)
  have horig := (checkBlock_eq d _ _).mp (hvp j _ b hprev hb)
  have hheader : headerMutDetected d bc.chain (j + 1) b (applyMutation b m) → False := by
    intro hdm
    unfold headerMutDetected at hdm
    by_cases hnext : j + 1 + 1 < bc.chain.length
    · rw [if_pos hnext] at hdm
      have hnextB : bc.chain[j + 1 + 1]? = some (bc.chain.get ⟨j + 1 + 1, hnext⟩) := by
        simp [List.get_eq_getElem]
      have hms' := (checkBlock_eq d _ _).mp
        ((valid_chain_opt d _).mp hmut (j + 1) (applyMutation b m) _
          (List.getElem?_set_self hilen)
          (by rw [List.getElem?_set_ne (by omega : j + 1 ≠ j + 1 + 1)]; exact hnextB))
      have horig2 := (checkBlock_eq d _ _).mp (hvp (j + 1) b _ hb hnextB)
      exact hdm (hms'.1.symm.trans horig2.1)
    · rw [if_neg hnext] at hdm
      rw [hmc'.2.1] at hdm
      exact Bool.noConfusion hdm
  cases m with
  | prevHash v => exact hc (horig.1.trans hmc'.1.symm)
  | merkleRoot v => exact hc (horig.2.2.symm.trans hmc'.2.2)
  | amount ti a => exact hd hmc'.2.2
  | index v => exact hheader hd
  | timestamp v => exact hheader hd
  | nonce v => exact hheader hd

/-! ## Concrete runs: counterexample and witness data -/

/-- Block mined by `mine` directly on the fresh ledger `wGen` (the nonce
search under `toyDigest` succeeds at nonce 0). -/
def cxBlock : Block :=
  (candidate toyDigest wGen "miner2" ts2 (create_genesis toyDigest ts1)).setNonce 0

/-- Ledger after construction followed by one successful `mine` call. -/
def cxMined : Blockchain := { chain := wGen.chain ++ [cxBlock], mem_pool := [] }

/-- `cxMined` with the nonce of its (last, non-genesis) block overwritten
by 1. -/
def cxTampered : Blockchain :=
  { chain := cxMined.chain.set 1 (applyMutation cxBlock (Mutation.nonce 1)),
    mem_pool := cxMined.mem_pool }

/-- The mined ledger `wMined` is reachable. -/
theorem wMined_reachable : Reachable toyDigest wMined :=
  Reachable.mined "miner1" ts2 10 wBlock
    (Reachable.addTx "Alice" "Bob" { mant := 12, dexp := 1 } (Reachable.genesis ts1)) rfl

/-- C1 (counterexample): a chain built by ledger construction followed by
one successful `mine` call, in which mutating the stored nonce of the
non-genesis block from 0 to the different value 1 leaves `isValid()`
true — under a digest function for which nonce 1 also satisfies the
difficulty prefix — refuting the claim's universal quantification over
every mutated value. -/
theorem tamper_nonce_counterexample :
    Reachable toyDigest cxMined ∧
    mine toyDigest wGen "miner2" ts2 10 = (some cxBlock, cxMined) ∧
    cxMined.chain[1]? = some cxBlock ∧
    cxBlock.nonce ≠ 1 ∧
    valid_chain toyDigest cxMined = true ∧
    valid_chain toyDigest cxTampered = true :=
  ⟨Reachable.mined "miner2" ts2 10 cxBlock (Reachable.genesis ts1) rfl,
   rfl, rfl, by decide, by decide, by decide⟩

/-! ## Witnesses -/

/-- Witness for C2: the concrete two-block ledger `wMined` is reachable
and validates. -/
theorem reachable_valid_witness :
    Reachable toyDigest wMined ∧ valid_chain toyDigest wMined = true :=
  ⟨wMined_reachable, reachable_valid toyDigest wMined wMined_reachable⟩

/-- Witness for C4: on the concrete run, the mined block's nonce is below
the bound and its digest satisfies the difficulty prefix. -/
theorem mine_sequential_search_witness :
    wPool.chain.getLast? = some (create_genesis toyDigest ts1) ∧
    wBlock.nonce < 10 ∧
    strStartsWith (wBlock.hash toyDigest) DIFFICULTY_PREFIX = true :=
  have hlb : wPool.chain.getLast? = some (create_genesis toyDigest ts1) := rfl
  have hth := (mine_sequential_search toyDigest wPool "miner1" ts2 10 _ hlb).1
    wBlock wMined rfl
  ⟨hlb, hth.2.1, hth.2.2.1⟩

/-- Witness for C5: a `mine` call with attempt bound 0 fails and returns
the ledger unchanged. -/
theorem mine_failure_witness :
    mine toyDigest wPool "miner1" ts2 0 =
      (none, (mine toyDigest wPool "miner1" ts2 0).2) ∧
    (mine toyDigest wPool "miner1" ts2 0).2 = wPool :=
  ⟨rfl, mine_failure_preserves_state toyDigest wPool "miner1" ts2 0 _ rfl⟩

/-- Witness for C6: the concrete successful mine call empties the mempool,
grows the chain by the returned block, and links it to the genesis
header digest. -/
theorem mine_success_postcondition_witness :
    (wPool.chain.getLast? = some (create_genesis toyDigest ts1) ∧
     mine toyDigest wPool "miner1" ts2 10 = (some wBlock, wMined)) ∧
    (wMined.mem_pool = [] ∧
     wMined.chain.length = wPool.chain.length + 1 ∧
     wMined.chain = wPool.chain ++ [wBlock] ∧
     wBlock.index = wPool.chain.length ∧
     wBlock.prev_hash = (create_genesis toyDigest ts1).hash toyDigest) :=
  have hlb : wPool.chain.getLast? = some (create_genesis toyDigest ts1) := rfl
  have hm : mine toyDigest wPool "miner1" ts2 10 = (some wBlock, wMined) := rfl
  ⟨⟨hlb, hm⟩,
   mine_success_postcondition toyDigest wPool "miner1" ts2 10 wBlock wMined _ hlb hm⟩

/-- Witness for C7: the concrete mined block carries the reward
transaction first, then the pending transaction, and commits to exactly
that sequence. -/
theorem mine_reward_first_witness :
    mine toyDigest wPool "miner1" ts2 10 = (some wBlock, wMined) ∧
    (wBlock.transactions = reward_tx "miner1" :: wPool.mem_pool ∧
     wBlock.merkle_root = merkle_root toyDigest
       ((reward_tx "miner1" :: wPool.mem_pool).map (Transaction.hash toyDigest))) :=
  have hm : mine toyDigest wPool "miner1" ts2 10 = (some wBlock, wMined) := rfl
  ⟨hm, mine_reward_first toyDigest wPool "miner1" ts2 10 wBlock wMined hm⟩

/-- Header with raw timestamp 1.5000001 (7 decimal places). -/
def wB1 : Block :=
  { index := 3, timestamp := { mant := 15000001, dexp := 7 }, prev_hash := "aa",
    merkle_root := "bb", nonce := 7, transactions := [] }

/-- Header agreeing with `wB1` after rounding, with different raw
timestamp and different transactions. -/
def wB2 : Block :=
  { index := 3, timestamp := { mant := 15000004, dexp := 7 }, prev_hash := "aa",
    merkle_root := "bb", nonce := 7, transactions := [genesis_tx] }

/-- Witness for C9: two blocks with equal header fields up to timestamp
rounding but different raw timestamps and different transaction lists
have equal header digests. -/
theorem header_digest_witness :
    (wB1.index = wB2.index ∧
     wB1.timestamp.round6 = wB2.timestamp.round6 ∧
     wB1.prev_hash = wB2.prev_hash ∧
     wB1.merkle_root = wB2.merkle_root ∧
     wB1.nonce = wB2.nonce ∧
     wB1.transactions ≠ wB2.transactions ∧
     wB1.timestamp ≠ wB2.timestamp) ∧
    wB1.hash toyDigest = wB2.hash toyDigest :=
  ⟨⟨rfl, by decide, rfl, rfl, rfl, by decide, by decide⟩,
   header_digest_header_fields_only toyDigest wB1 wB2 rfl (by decide) rfl rfl rfl⟩

/-- Witness for C10: on the reachable ledger `wMined` every stored Merkle
root matches the recomputation and the genesis root is its transaction's
digest. -/
theorem stored_merkle_roots_witness :
    Reachable toyDigest wMined ∧
    ((∀ b ∈ wMined.chain,
        b.merkle_root = merkle_root toyDigest (b.transactions.map (Transaction.hash toyDigest))) ∧
     (∀ g, wMined.chain.head? = some g →
        g.merkle_root = Transaction.hash toyDigest genesis_tx)) :=
  ⟨wMined_reachable, stored_merkle_roots_correct toyDigest wMined wMined_reachable⟩

/-- Witness for C1 (amended): mutating the previous-hash field of the
non-genesis block of `wMined` to a different value is detected. -/
theorem tamper_detection_witness :
    (valid_chain toyDigest wMined = true ∧
     wMined.chain[1]? = some wBlock ∧
     mutChanges wBlock (Mutation.prevHash "00") ∧
     mutationDetected toyDigest wMined.chain 1 wBlock (Mutation.prevHash "00")) ∧
    valid_chain toyDigest
      { chain := wMined.chain.set 1 (applyMutation wBlock (Mutation.prevHash "00")),
        mem_pool := wMined.mem_pool } = false :=
  have h1 : valid_chain toyDigest wMined = true := by decide
  have h2 : wMined.chain[1]? = some wBlock := rfl
  have h3 : mutChanges wBlock (Mutation.prevHash "00") := by
    show wBlock.prev_hash ≠ "00"
    decide
  have h4 : mutationDetected toyDigest wMined.chain 1 wBlock (Mutation.prevHash "00") :=
    trivial
  ⟨⟨h1, h2, h3, h4⟩,
   tamper_detection_amended toyDigest wMined 1 wBlock (Mutation.prevHash "00")
     h1 (by omega) h2 h3 h4⟩
